import Mathlib

/-!
Verification of the claim-extraction RAG core against its specification.

Strings are modelled as `List Char`.  The normalizer
(`ClaimIngestor._clean_tweet_content`) applies, in order,
`re.sub(r"http\S+|www\S+|https\S+", "", t)`, `re.sub(r"<.*?>", "", t)`,
`re.sub(r"\s+", " ", t).strip()`; each substitution is embedded as a
left-to-right leftmost non-overlapping scan, exactly as Python's `re.sub`
performs it.
-/

namespace ClaimRag

/-! ## Definitions -/

/-- Whitespace class of the regex `\s` restricted to the ASCII range
(space, tab, newline, carriage return, vertical tab, form feed). -/
def isSpaceCh (c : Char) : Bool :=
  c = ' ' || c = '\t' || c = '\n' || c = '\r' || c = '\x0b' || c = '\x0c'

/-- Does `http\S+|www\S+|https\S+` match at the head of `l`?
`http\S+` needs the literal `http` followed by at least one non-space
character (greediness then eats the whole non-space run); `www\S+`
likewise; `https\S+` is subsumed by `http\S+`. -/
def urlMatchAt (l : List Char) : Bool :=
  match l with
  | 'h' :: 't' :: 't' :: 'p' :: d :: _ => !isSpaceCh d
  | 'w' :: 'w' :: 'w' :: d :: _ => !isSpaceCh d
  | _ => false

/-- Scanner for `re.sub(r"http\S+|www\S+|https\S+", "", l)`.  The flag is
`true` while the scanner is inside a matched token: the greedy `\S+`
consumes every following non-space character, and the scan resumes at the
first whitespace character (where no new match can start, so that
character is emitted directly). -/
def urlStripAux : Bool → List Char → List Char
  | _, [] => []
  | true, c :: cs =>
    if isSpaceCh c then c :: urlStripAux false cs
    else urlStripAux true cs
  | false, c :: cs =>
    if urlMatchAt (c :: cs) then urlStripAux true cs
    else c :: urlStripAux false cs

/-- `re.sub(r"http\S+|www\S+|https\S+", "", l)`. -/
def urlStrip (l : List Char) : List Char :=
  urlStripAux false l

/-- Scan for the closing `>` of a non-greedy `<.*?>` match: returns the
remainder after the first `>`, unless a newline (which `.` cannot match)
intervenes or the list ends. -/
def findTagClose : List Char → Option (List Char)
  | [] => none
  | c :: cs => if c = '>' then some cs else if c = '\n' then none else findTagClose cs

/-- Scanner for `re.sub(r"<.*?>", "", l)`.  Outside a candidate tag the
buffer is `none`; after reading `<` the scanner buffers the characters of
the candidate match (in reverse).  A `>` closes the match and the whole
buffer is dropped; a newline (unmatchable by `.`) or the end of input
aborts the candidate, and the buffered characters are emitted unchanged
(none of them can start a match that extends past the newline, and any
buffered `<` would be closed by a `>` only after the same newline). -/
def tagStripAux : Option (List Char) → List Char → List Char
  | none, [] => []
  | some buf, [] => buf.reverse
  | none, c :: cs =>
    if c = '<' then tagStripAux (some [c]) cs
    else c :: tagStripAux none cs
  | some buf, c :: cs =>
    if c = '>' then tagStripAux none cs
    else if c = '\n' then buf.reverse ++ '\n' :: tagStripAux none cs
    else tagStripAux (some (c :: buf)) cs

/-- `re.sub(r"<.*?>", "", l)`. -/
def tagStrip (l : List Char) : List Char :=
  tagStripAux none l

/-- Scanner for `re.sub(r"\s+", " ", l)`: the flag is `true` while inside
a whitespace run whose single replacement space has already been
emitted. -/
def wsCollapseAux : Bool → List Char → List Char
  | _, [] => []
  | true, c :: cs =>
    if isSpaceCh c then wsCollapseAux true cs
    else c :: wsCollapseAux false cs
  | false, c :: cs =>
    if isSpaceCh c then ' ' :: wsCollapseAux true cs
    else c :: wsCollapseAux false cs

/-- `re.sub(r"\s+", " ", l)`. -/
def wsCollapse (l : List Char) : List Char :=
  wsCollapseAux false l

/-- Python `str.strip()`: drop leading and trailing whitespace. -/
def stripWs (l : List Char) : List Char :=
  ((l.dropWhile isSpaceCh).reverse.dropWhile isSpaceCh).reverse

/-- The string path of `ClaimIngestor._clean_tweet_content`
(src/src/ingestion/ingest.py lines 55-58): URL removal, then tag removal,
then whitespace collapse and strip. -/
def clean (l : List Char) : List Char :=
  stripWs (wsCollapse (tagStrip (urlStrip l)))

/-- `l` contains no match of the URL regex at any position. -/
def urlFreeB : List Char → Bool
  | [] => true
  | c :: cs => !urlMatchAt (c :: cs) && urlFreeB cs

/-- `l` contains no match of the tag regex `<.*?>` at any position. -/
def tagFreeB : List Char → Bool
  | [] => true
  | c :: cs => (if c = '<' then (findTagClose cs).isNone else true) && tagFreeB cs

/-- Shape shared by the post-processing passes of the normalizer: if the
output is nonempty, its tail is the output of the same pass on a suffix of
the input's tail, and a non-whitespace head is the input's own head. -/
def ScanLike (f : List Char → List Char) : Prop :=
  ∀ l d t, f l = d :: t →
    ∃ l', t = f l' ∧ l' <:+ l.tail ∧ (isSpaceCh d = false → l = d :: l')

/-- Python `str.rstrip()`: drop trailing whitespace. -/
def rstrip (l : List Char) : List Char :=
  (l.reverse.dropWhile isSpaceCh).reverse

/-- Whitespace normal form: every whitespace character is a plain space
and no two adjacent characters are both whitespace. -/
def collapsed (l : List Char) : Prop :=
  (∀ c ∈ l, isSpaceCh c = true → c = ' ') ∧
    l.Chain' (fun a b => isSpaceCh a = false ∨ isSpaceCh b = false)

/-- A pandas cell: a Python string, or a non-string value (NaN from a
missing field, or a number). -/
inductive CellValue where
  | str (s : List Char)
  | nan
  | num (n : Int)
deriving DecidableEq

/-- `ClaimIngestor._clean_tweet_content` in full (src/src/ingestion/
ingest.py lines 46-58): the `isinstance(text, str)` guard returns the
empty string on any non-string input; strings go through the three
substitutions. -/
def cleanTweetContent : CellValue → List Char
  | .str s => clean s
  | .nan => []
  | .num _ => []

/-- One source record; only the `tweet_text` column takes part in the
verified claims, other columns pass through unchanged. -/
structure SrcRecord where
  tweet_text : CellValue
deriving DecidableEq

/-- `ClaimIngestor.process_and_unify` (lines 90-103):
`pd.concat(dataframes, ignore_index=True)` then
`master_df["tweet_text"].apply(self._clean_tweet_content)`; the applied
function always returns a Python string, so the stored cell is `str`. -/
def processAndUnify (dfs : List (List SrcRecord)) : List SrcRecord :=
  dfs.flatten.map fun r => { r with tweet_text := .str (cleanTweetContent r.tweet_text) }

/-- The index call forwarded by `ClaimRetriever.search`. -/
inductive IndexCall where
  | mmr (query : List Char) (k : Int) (fetchK : Int) (lambdaMult : Rat)
  | similarity (query : List Char) (k : Int)
deriving DecidableEq

/-- The invalid-argument rejection the specification requires; the
`Except` wrapping makes such a rejection expressible in the model. -/
inductive SearchError where
  | invalidArgument
deriving DecidableEq

/-- `ClaimRetriever.search` (src/src/engine/retriever.py lines 31-49):
the arguments are forwarded to the vector store without validation; MMR
mode passes `fetch_k=20` and `lambda_mult=0.5`. -/
def search (query : List Char) (k : Int) (useMmr : Bool) :
    Except SearchError IndexCall :=
  if useMmr then Except.ok (IndexCall.mmr query k 20 (1/2 : Rat))
  else Except.ok (IndexCall.similarity query k)

/-- The `k` argument carried by a forwarded index call. -/
def kOf : IndexCall → Int
  | .mmr _ k _ _ => k
  | .similarity _ k => k

/-- The `fetch_k` argument carried by a forwarded index call (`none` for
plain similarity search, which has no candidate pool). -/
def fetchKOf : IndexCall → Option Int
  | .mmr _ _ fk _ => some fk
  | .similarity _ _ => none

/-- One text chunk with its `start_index` offset. -/
structure Chunk where
  text : List Char
  startIndex : Nat
deriving DecidableEq

/-- Position right after the last whitespace character of `w` (a word
boundary usable as a cut point), if any. -/
def lastBoundaryAux : List Char → Nat → Option Nat → Option Nat
  | [], _, acc => acc
  | c :: rest, i, acc =>
    lastBoundaryAux rest (i + 1) (if isSpaceCh c then some (i + 1) else acc)

def lastBoundary (w : List Char) : Option Nat :=
  lastBoundaryAux w 0 none

/-- Cut position for the window starting at `s`: the last word boundary
inside the window if it leaves room for progress past the shared overlap,
otherwise a hard cut after `chunkSize` characters. -/
def chunkCut (t : List Char) (chunkSize chunkOverlap s : Nat) : Nat :=
  match lastBoundary ((t.drop s).take chunkSize) with
  | some j => if chunkOverlap < j then s + j else s + chunkSize
  | none => s + chunkSize

/-- Modelled from the spec: the chunk splitter used by
`ClaimIngestor.build_vector_index` (src/src/ingestion/ingest.py lines
115-118) is the external library `RecursiveCharacterTextSplitter(
chunk_size=512, chunk_overlap=50, add_start_index=True)`, whose
implementation is not part of this repository.  Following spec section
4.2: a fixed-size sliding window of `chunkSize` characters over the
text; the cut prefers the last word boundary inside the window when one
exists past the overlap, falling back to a hard character cut;
consecutive chunks share exactly `chunkOverlap` characters, so the next
window starts `chunkOverlap` characters before the previous cut; each
chunk records its `start_index`.  The first argument is recursion fuel,
always called with at least the text length. -/
def splitFromFuel : Nat → List Char → Nat → Nat → Nat → List Chunk
  | 0, _, _, _, _ => []
  | fuel + 1, t, chunkSize, chunkOverlap, s =>
    if t.length ≤ s + chunkSize then [⟨t.drop s, s⟩]
    else
      ⟨(t.drop s).take (chunkCut t chunkSize chunkOverlap s - s), s⟩ ::
        splitFromFuel fuel t chunkSize chunkOverlap
          (chunkCut t chunkSize chunkOverlap s - chunkOverlap)

/-- Modelled from the spec: full splitter over one text; empty input
yields zero chunks (spec 4.2). -/
def splitText (t : List Char) (chunkSize chunkOverlap : Nat) : List Chunk :=
  if t.isEmpty then [] else splitFromFuel t.length t chunkSize chunkOverlap 0

/-- One parsed TSV row; `wellFormed` is `false` for the rows the pandas
parser reports as malformed (bad field count); `payload` stands for the
row's contents. -/
structure Row where
  wellFormed : Bool
  payload : Nat
deriving DecidableEq

/-- A source file: its rows, and whether its raw bytes decode as UTF-8
(latin-1 decodes any byte string, so no flag is needed for it). -/
structure SrcFile where
  rows : List Row
  utf8Decodable : Bool
deriving DecidableEq

inductive Encoding where
  | utf8
  | latin1
deriving DecidableEq

/-- `on_bad_lines` behaviour of `pd.read_csv`: `"warn"` skips malformed
rows; the pandas default raises a parser error on the first one. -/
inductive BadLinesPolicy where
  | warnSkip
  | raiseError
deriving DecidableEq

inductive ReadError where
  | unicodeDecodeError
  | parserError
deriving DecidableEq

/-- `pd.read_csv(file_path, sep="\t", encoding=enc, ...)`: a UTF-8 read
of undecodable bytes raises `UnicodeDecodeError`; otherwise malformed
rows are skipped or raise according to the `on_bad_lines` policy. -/
def readCsv (f : SrcFile) (enc : Encoding) (policy : BadLinesPolicy) :
    Except ReadError (List Row) :=
  if enc = Encoding.utf8 && !f.utf8Decodable then
    Except.error ReadError.unicodeDecodeError
  else
    match policy with
    | .warnSkip => Except.ok (f.rows.filter (·.wellFormed))
    | .raiseError =>
      if f.rows.all (·.wellFormed) then Except.ok f.rows
      else Except.error ReadError.parserError

/-- The two-step read of one file in `ClaimIngestor.load_source_data`
(src/src/ingestion/ingest.py lines 75-81): `pd.read_csv(...,
encoding="utf-8", on_bad_lines="warn")`, and only on `UnicodeDecodeError`
the fallback `pd.read_csv(file_path, sep="\t", encoding="latin-1")`,
which passes no `on_bad_lines` and therefore uses the raising pandas
default. -/
def readWithFallback (f : SrcFile) : Except ReadError (List Row) :=
  match readCsv f Encoding.utf8 BadLinesPolicy.warnSkip with
  | .ok rows => Except.ok rows
  | .error .unicodeDecodeError => readCsv f Encoding.latin1 BadLinesPolicy.raiseError
  | .error e => Except.error e

/-- The ordered list of encodings `readWithFallback` attempts. -/
def encodingsAttempted (f : SrcFile) : List Encoding :=
  match readCsv f Encoding.utf8 BadLinesPolicy.warnSkip with
  | .ok _ => [Encoding.utf8]
  | .error .unicodeDecodeError => [Encoding.utf8, Encoding.latin1]
  | .error _ => [Encoding.utf8]

/-- A loaded table tagged with its provenance
(`df["source_filename"] = file_name`). -/
structure Frame where
  rows : List Row
  source_filename : List Char
deriving DecidableEq

/-- The loop body of `ClaimIngestor.load_source_data` (lines 68-86) over
a list of file names: `_validate_tsv` skips missing files and non-`.tsv`
names; the fallback read's uncaught parser error propagates and aborts
the whole load; a file whose table is empty is dropped without receiving
a provenance tag. -/
def loadFiles (dir : List Char → Option SrcFile) :
    List (List Char) → Except ReadError (List Frame)
  | [] => Except.ok []
  | name :: rest =>
    match dir name with
    | none => loadFiles dir rest
    | some f =>
      if ".tsv".toList.isSuffixOf name then
        match readWithFallback f with
        | .error e => Except.error e
        | .ok rows =>
          match loadFiles dir rest with
          | .error e => Except.error e
          | .ok frames =>
            if rows.isEmpty then Except.ok frames
            else Except.ok ({ rows := rows, source_filename := name } :: frames)
      else loadFiles dir rest

/-- The hardcoded `target_files` list (line 65). -/
def targetFiles : List (List Char) :=
  ["claim_dataset.tsv".toList, "checkworthiness_dataset.tsv".toList]

/-- `ClaimIngestor.load_source_data` (lines 60-88), over a directory
modelled as a partial map from file name to file contents. -/
def loadSourceData (dir : List Char → Option SrcFile) :
    Except ReadError (List Frame) :=
  loadFiles dir targetFiles

/-- A retrieved document at the answer-synthesis boundary: page content
plus the optional `class_label` metadata entry. -/
structure SourceDoc where
  page_content : List Char
  class_label : Option (List Char)
deriving DecidableEq

/-- `doc.metadata.get('class_label')` rendered by the f-string: a missing
label appears as the text `None`. -/
def renderLabel : Option (List Char) → List Char
  | some s => s
  | none => "None".toList

/-- One entry of the context string built by
`ClaimGenerator.generate_answer` (src/src/engine/generator.py lines
37-42) for the document at 0-based position `i`. -/
def sourceLine (i : Nat) (d : SourceDoc) : List Char :=
  "Source [".toList ++ (Nat.repr (i + 1)).toList ++ "]: ".toList ++
    d.page_content ++ " (Label: ".toList ++ renderLabel d.class_label ++ ")".toList

/-- The full context string: `"\n\n".join(...)` over the enumerated
context documents. -/
def contextText (docs : List SourceDoc) : List Char :=
  List.intercalate "\n\n".toList (docs.enum.map fun p => sourceLine p.1 p.2)

/-- The exact-overlap relation between consecutive chunks: the previous
chunk ends exactly `co` characters into the next one, both chunks are at
least `co` long, and the shared `co` characters coincide. -/
def overlapR (co : Nat) (a b : Chunk) : Prop :=
  a.startIndex + a.text.length = b.startIndex + co ∧
    co ≤ a.text.length ∧ co ≤ b.text.length ∧
    a.text.drop (a.text.length - co) = b.text.take co

instance (co : Nat) (a b : Chunk) : Decidable (overlapR co a b) := by
  unfold overlapR
  infer_instance

/-! ## Lemmas and claim theorems -/

example : clean "ht<a>tpz".toList = "httpz".toList := by decide

example : clean (clean "ht<a>tpz".toList) = [] := by decide

example : clean "  Vaccine \t trials <b>begin</b> in Cuba http://x.co ".toList
    = "Vaccine trials begin in Cuba".toList := by decide

example : clean "see www.foo.com and <i>more</i>\n\nnow".toList
    = "see and more now".toList := by decide

lemma urlMatchAt_eq_true (l : List Char) :
    urlMatchAt l = true ↔
      (∃ d r, l = 'h' :: 't' :: 't' :: 'p' :: d :: r ∧ isSpaceCh d = false) ∨
      (∃ d r, l = 'w' :: 'w' :: 'w' :: d :: r ∧ isSpaceCh d = false) := by
  constructor
  · intro h
    unfold urlMatchAt at h
    split at h
    · exact Or.inl ⟨_, _, rfl, by simpa using h⟩
    · exact Or.inr ⟨_, _, rfl, by simpa using h⟩
    · simp at h
  · rintro (⟨d, r, rfl, hd⟩ | ⟨d, r, rfl, hd⟩) <;> simp [urlMatchAt, hd]

lemma urlMatchAt_of_space (c : Char) (cs : List Char) (h : isSpaceCh c = true) :
    urlMatchAt (c :: cs) = false := by
  cases hm : urlMatchAt (c :: cs) with
  | false => rfl
  | true =>
    rcases (urlMatchAt_eq_true _).1 hm with ⟨d, r, he, _⟩ | ⟨d, r, he, _⟩ <;>
    · injection he with h1 _
      subst h1
      exact absurd h (by decide)

/-- A URL match in `c :: f cs` for a `ScanLike` `f` pulls back to a URL
match in `c :: cs`. -/
lemma urlMatchAt_pull (f : List Char → List Char) (hf : ScanLike f)
    (c : Char) (cs : List Char) (h : urlMatchAt (c :: f cs) = true) :
    urlMatchAt (c :: cs) = true := by
  rcases (urlMatchAt_eq_true _).1 h with ⟨d, r, he, hd⟩ | ⟨d, r, he, hd⟩
  · injection he with h1 he
    subst h1
    obtain ⟨cs1, ht1, _, hcons1⟩ := hf cs 't' _ he
    obtain rfl := hcons1 (by decide)
    obtain ⟨cs2, ht2, _, hcons2⟩ := hf cs1 't' _ ht1.symm
    obtain rfl := hcons2 (by decide)
    obtain ⟨cs3, ht3, _, hcons3⟩ := hf cs2 'p' _ ht2.symm
    obtain rfl := hcons3 (by decide)
    obtain ⟨cs4, _, _, hcons4⟩ := hf cs3 d _ ht3.symm
    obtain rfl := hcons4 (by simpa using hd)
    simp [urlMatchAt, hd]
  · injection he with h1 he
    subst h1
    obtain ⟨cs1, ht1, _, hcons1⟩ := hf cs 'w' _ he
    obtain rfl := hcons1 (by decide)
    obtain ⟨cs2, ht2, _, hcons2⟩ := hf cs1 'w' _ ht1.symm
    obtain rfl := hcons2 (by decide)
    obtain ⟨cs3, _, _, hcons3⟩ := hf cs2 d _ ht2.symm
    obtain rfl := hcons3 (by simpa using hd)
    simp [urlMatchAt, hd]

/-- Inside a matched URL token the scanner emits nothing until the first
whitespace character: a nonempty output starts with that whitespace
character, and the rest is a `false`-state scan of a suffix. -/
lemma urlStripAux_true_cons (cs : List Char) (d : Char) (t : List Char)
    (h : urlStripAux true cs = d :: t) :
    isSpaceCh d = true ∧ ∃ cs', t = urlStripAux false cs' ∧ cs' <:+ cs := by
  induction cs with
  | nil => simp [urlStripAux] at h
  | cons x xs ih =>
    by_cases hx : isSpaceCh x
    · rw [urlStripAux, if_pos hx] at h
      injection h with h1 h2
      exact ⟨h1 ▸ hx, xs, h2.symm, List.suffix_cons x xs⟩
    · rw [urlStripAux, if_neg hx] at h
      obtain ⟨hd, cs', ht, hsuf⟩ := ih h
      exact ⟨hd, cs', ht, hsuf.trans (List.suffix_cons x xs)⟩

lemma scanLike_urlStrip : ScanLike urlStrip := by
  intro l d t h
  match l with
  | [] => simp [urlStrip, urlStripAux] at h
  | c :: cs =>
    by_cases hm : urlMatchAt (c :: cs)
    · rw [urlStrip, urlStripAux, if_pos hm] at h
      obtain ⟨hd, cs', ht, hsuf⟩ := urlStripAux_true_cons cs d t h
      exact ⟨cs', ht, hsuf, fun hns => absurd hd (by simp [hns])⟩
    · rw [urlStrip, urlStripAux, if_neg hm] at h
      injection h with h1 h2
      exact ⟨cs, h2.symm, List.suffix_refl cs, fun _ => by rw [h1]⟩

/-- After its single replacement space, the collapsing scanner behaves as
a fresh scan of the input with its leading whitespace removed. -/
lemma wsCollapseAux_true_eq (l : List Char) :
    wsCollapseAux true l = wsCollapseAux false (l.dropWhile isSpaceCh) := by
  induction l with
  | nil => rfl
  | cons x xs ih =>
    by_cases hx : isSpaceCh x <;>
      simp [wsCollapseAux, hx, List.dropWhile_cons, ih]

lemma scanLike_wsCollapse : ScanLike wsCollapse := by
  intro l d t h
  match l with
  | [] => simp [wsCollapse, wsCollapseAux] at h
  | c :: cs =>
    by_cases hc : isSpaceCh c
    · rw [wsCollapse, wsCollapseAux, if_pos hc, wsCollapseAux_true_eq] at h
      injection h with h1 h2
      refine ⟨cs.dropWhile isSpaceCh, h2.symm, List.dropWhile_suffix isSpaceCh,
        fun hns => absurd hns ?_⟩
      rw [← h1]
      decide
    · rw [wsCollapse, wsCollapseAux, if_neg hc] at h
      injection h with h1 h2
      exact ⟨cs, h2.symm, List.suffix_refl cs, fun _ => by rw [h1]⟩

lemma stripWs_eq (l : List Char) :
    stripWs l = rstrip (l.dropWhile isSpaceCh) := rfl

lemma rstrip_cons (d : Char) (x : List Char) :
    rstrip (d :: x) =
      if (x.reverse.dropWhile isSpaceCh).isEmpty then
        (if isSpaceCh d then [] else [d])
      else d :: rstrip x := by
  unfold rstrip
  rw [List.reverse_cons, List.dropWhile_append]
  by_cases he : (x.reverse.dropWhile isSpaceCh).isEmpty
  · rw [if_pos he, if_pos he]
    by_cases hd : isSpaceCh d <;> simp [List.dropWhile_cons, hd]
  · rw [if_neg he, if_neg he]
    simp

lemma scanLike_rstrip : ScanLike rstrip := by
  intro l d t h
  match l with
  | [] => simp [rstrip] at h
  | c :: cs =>
    rw [rstrip_cons] at h
    by_cases he : (cs.reverse.dropWhile isSpaceCh).isEmpty
    · rw [if_pos he] at h
      have hre : rstrip cs = [] := by
        rw [rstrip, List.isEmpty_iff.mp he, List.reverse_nil]
      by_cases hc : isSpaceCh c
      · rw [if_pos hc] at h
        exact absurd h (by simp)
      · rw [if_neg hc] at h
        injection h with h1 h2
        exact ⟨cs, by rw [← h2, hre], List.suffix_refl cs, fun _ => by rw [h1]⟩
    · rw [if_neg he] at h
      injection h with h1 h2
      exact ⟨cs, h2.symm, List.suffix_refl cs, fun _ => by rw [h1]⟩

lemma urlFreeB_cons (c : Char) (cs : List Char) (h : urlFreeB (c :: cs) = true) :
    urlMatchAt (c :: cs) = false ∧ urlFreeB cs = true := by
  rw [urlFreeB, Bool.and_eq_true, Bool.not_eq_true'] at h
  exact h

lemma urlFreeB_suffix (l₁ l₂ : List Char) (hs : l₁ <:+ l₂)
    (h : urlFreeB l₂ = true) : urlFreeB l₁ = true := by
  obtain ⟨pre, rfl⟩ := hs
  induction pre with
  | nil => simpa using h
  | cons x xs ih => exact ih (urlFreeB_cons x (xs ++ l₁) h).2

/-- No pass of `ScanLike` shape introduces a URL match. -/
lemma urlFreeB_of_scanLike (f : List Char → List Char) (hf : ScanLike f)
    (hnil : f [] = []) :
    ∀ n l, l.length ≤ n → urlFreeB l = true → urlFreeB (f l) = true := by
  intro n
  induction n with
  | zero =>
    intro l hl _
    rw [List.length_eq_zero.mp (Nat.le_zero.mp hl), hnil]
    rfl
  | succ n ih =>
    intro l hl h
    cases hfl : f l with
    | nil => rfl
    | cons d t =>
      obtain ⟨l', ht, hsuf, hcons⟩ := hf l d t hfl
      have hlne : l ≠ [] := by
        rintro rfl
        rw [hnil] at hfl
        exact List.noConfusion hfl
      have hlen' : l'.length ≤ n := by
        have h1 : l'.length ≤ l.tail.length := hsuf.length_le
        have h2 : l.tail.length + 1 = l.length := by
          cases l with
          | nil => exact absurd rfl hlne
          | cons a as => simp
        omega
      have hfree' : urlFreeB l' = true :=
        urlFreeB_suffix _ _ (hsuf.trans (List.tail_suffix l)) h
      have htail : urlFreeB t = true := ht ▸ ih l' hlen' hfree'
      have hnm : urlMatchAt (d :: t) = false := by
        by_cases hd : isSpaceCh d
        · exact urlMatchAt_of_space d t hd
        · cases hm : urlMatchAt (d :: t) with
          | false => rfl
          | true =>
            exfalso
            rw [ht] at hm
            have hpull := urlMatchAt_pull f hf d l' hm
            rw [hcons (by simpa using hd)] at h
            rw [(urlFreeB_cons d l' h).1] at hpull
            exact Bool.noConfusion hpull
      rw [urlFreeB, hnm, htail]
      rfl

/-- The output of the URL-removal pass contains no URL match, whatever the
input (in either scanner state). -/
lemma urlFreeB_urlStripAux :
    ∀ n l, l.length ≤ n →
      urlFreeB (urlStripAux false l) = true ∧ urlFreeB (urlStripAux true l) = true := by
  intro n
  induction n with
  | zero =>
    intro l hl
    rw [List.length_eq_zero.mp (Nat.le_zero.mp hl)]
    exact ⟨rfl, rfl⟩
  | succ n ih =>
    intro l hl
    cases l with
    | nil => exact ⟨rfl, rfl⟩
    | cons c cs =>
      have hcs : cs.length ≤ n := by
        simp only [List.length_cons] at hl
        omega
      constructor
      · rw [urlStripAux]
        by_cases hm : urlMatchAt (c :: cs)
        · rw [if_pos hm]
          exact (ih cs hcs).2
        · rw [if_neg hm]
          have htail := (ih cs hcs).1
          have hnm : urlMatchAt (c :: urlStripAux false cs) = false := by
            cases hm2 : urlMatchAt (c :: urlStripAux false cs) with
            | false => rfl
            | true =>
              exact absurd (urlMatchAt_pull urlStrip scanLike_urlStrip c cs hm2) hm
          rw [urlFreeB, hnm, htail]
          rfl
      · rw [urlStripAux]
        by_cases hsp : isSpaceCh c
        · rw [if_pos hsp]
          have htail := (ih cs hcs).1
          rw [urlFreeB, urlMatchAt_of_space c _ hsp, htail]
          rfl
        · rw [if_neg hsp]
          exact (ih cs hcs).2

lemma urlFreeB_urlStrip (l : List Char) : urlFreeB (urlStrip l) = true :=
  (urlFreeB_urlStripAux l.length l (Nat.le_refl _)).1

/-- The URL-removal pass fixes every URL-match-free list. -/
lemma urlStrip_of_urlFree (l : List Char) (h : urlFreeB l = true) :
    urlStrip l = l := by
  induction l with
  | nil => rfl
  | cons c cs ih =>
    obtain ⟨hm, hcs⟩ := urlFreeB_cons c cs h
    rw [urlStrip, urlStripAux, if_neg (by rw [hm]; exact Bool.noConfusion)]
    rw [urlStrip] at ih
    rw [ih hcs]

lemma collapsed_nil : collapsed [] := ⟨by simp, List.chain'_nil⟩

lemma collapsed_within (l₁ l₂ : List Char) (hi : l₁ <:+: l₂)
    (h : collapsed l₂) : collapsed l₁ :=
  ⟨fun c hc => h.1 c (hi.subset hc), List.Chain'.infix h.2 hi⟩

lemma wsCollapseAux_true_head (l : List Char) (d : Char) (t : List Char)
    (h : wsCollapseAux true l = d :: t) : isSpaceCh d = false := by
  induction l with
  | nil => exact absurd h (by simp [wsCollapseAux])
  | cons x xs ih =>
    by_cases hx : isSpaceCh x
    · rw [wsCollapseAux, if_pos hx] at h
      exact ih h
    · rw [wsCollapseAux, if_neg hx] at h
      injection h with h1 _
      rw [← h1]
      simpa using hx

/-- The whitespace-collapsing pass always produces a collapsed list. -/
lemma collapsed_wsCollapseAux (l : List Char) :
    collapsed (wsCollapseAux false l) ∧ collapsed (wsCollapseAux true l) := by
  induction l with
  | nil => exact ⟨collapsed_nil, collapsed_nil⟩
  | cons c cs ih =>
    by_cases hc : isSpaceCh c
    · constructor
      · rw [wsCollapseAux, if_pos hc]
        refine ⟨?_, ?_⟩
        · intro x hx _
          rcases List.mem_cons.mp hx with h1 | h2
          · exact h1
          · exact (ih.2.1) x h2 (by assumption)
        · rw [List.chain'_cons']
          refine ⟨?_, ih.2.2⟩
          intro y hy
          cases ht : wsCollapseAux true cs with
          | nil => rw [ht] at hy; simp at hy
          | cons d t =>
            rw [ht] at hy
            simp only [List.head?_cons, Option.mem_some_iff] at hy
            exact Or.inr (hy ▸ wsCollapseAux_true_head cs d t ht)
      · rw [wsCollapseAux, if_pos hc]
        exact ih.2
    · have hcons : collapsed (c :: wsCollapseAux false cs) := by
        refine ⟨?_, ?_⟩
        · intro x hx hsp
          rcases List.mem_cons.mp hx with h1 | h2
          · exact absurd (h1 ▸ hsp) (by simpa using hc)
          · exact ih.1.1 x h2 hsp
        · rw [List.chain'_cons']
          exact ⟨fun y _ => Or.inl (by simpa using hc), ih.1.2⟩
      constructor
      · rw [wsCollapseAux, if_neg hc]
        exact hcons
      · rw [wsCollapseAux, if_neg hc]
        exact hcons

lemma collapsed_wsCollapse (l : List Char) : collapsed (wsCollapse l) :=
  (collapsed_wsCollapseAux l).1

lemma dropWhile_of_head (p : Char → Bool) (l : List Char)
    (h : ∀ y ∈ l.head?, p y = false) : l.dropWhile p = l := by
  cases l with
  | nil => rfl
  | cons x xs =>
    have := h x (by simp)
    rw [List.dropWhile_cons, this]
    simp

lemma collapsed_tail (c : Char) (cs : List Char) (h : collapsed (c :: cs)) :
    collapsed cs :=
  ⟨fun x hx => h.1 x (List.mem_cons_of_mem c hx), (List.chain'_cons'.mp h.2).2⟩

/-- The whitespace-collapsing pass fixes every collapsed list. -/
lemma wsCollapse_of_collapsed (l : List Char) (h : collapsed l) :
    wsCollapse l = l := by
  induction l with
  | nil => rfl
  | cons c cs ih =>
    have hcs := ih (collapsed_tail c cs h)
    by_cases hc : isSpaceCh c
    · have hsp : c = ' ' := h.1 c (by simp) hc
      have hhead : ∀ y ∈ cs.head?, isSpaceCh y = false := by
        intro y hy
        rcases (List.chain'_cons'.mp h.2).1 y hy with h1 | h2
        · exact absurd hc (by rw [h1]; exact Bool.noConfusion)
        · exact h2
      rw [wsCollapse, wsCollapseAux, if_pos hc, wsCollapseAux_true_eq,
        dropWhile_of_head _ _ hhead]
      rw [wsCollapse] at hcs
      rw [hcs, hsp]
    · rw [wsCollapse, wsCollapseAux, if_neg hc]
      rw [wsCollapse] at hcs
      rw [hcs]

lemma head_dropWhile (p : Char → Bool) (l : List Char) :
    ∀ y ∈ (l.dropWhile p).head?, p y = false := by
  induction l with
  | nil => simp [List.dropWhile]
  | cons x xs ih =>
    intro y hy
    rw [List.dropWhile_cons] at hy
    by_cases hx : p x
    · rw [if_pos hx] at hy
      exact ih y hy
    · rw [if_neg hx] at hy
      simp only [List.head?_cons, Option.mem_some_iff] at hy
      rw [← hy]
      simpa using hx

lemma rstrip_leading (l : List Char) : rstrip l <+: l := by
  have h1 : (l.reverse.dropWhile isSpaceCh) <:+ l.reverse :=
    List.dropWhile_suffix isSpaceCh
  rw [rstrip]
  have h2 : (l.reverse.dropWhile isSpaceCh).reverse.reverse <:+ l.reverse := by
    rw [List.reverse_reverse]
    exact h1
  exact List.reverse_suffix.mp h2

lemma stripWs_within (l : List Char) : stripWs l <:+: l := by
  rw [stripWs_eq]
  exact (rstrip_leading _).isInfix.trans (List.dropWhile_suffix isSpaceCh).isInfix

/-- Heads of `stripWs` outputs are non-whitespace. -/
lemma stripWs_head (l : List Char) :
    ∀ y ∈ (stripWs l).head?, isSpaceCh y = false := by
  intro y hy
  rw [stripWs_eq] at hy
  cases hr : rstrip (l.dropWhile isSpaceCh) with
  | nil => rw [hr] at hy; simp at hy
  | cons d t =>
    rw [hr] at hy
    simp only [List.head?_cons, Option.mem_some_iff] at hy
    -- the head of `rstrip x` is the head of `x`
    have hp := rstrip_leading (l.dropWhile isSpaceCh)
    rw [hr] at hp
    obtain ⟨post, hpost⟩ := hp
    have hhead : (l.dropWhile isSpaceCh).head? = some d := by
      rw [← hpost]
      simp
    rw [← hy]
    exact head_dropWhile isSpaceCh l d hhead

/-- Last characters of `stripWs` outputs are non-whitespace. -/
lemma stripWs_getLast (l : List Char) :
    ∀ y ∈ (stripWs l).getLast?, isSpaceCh y = false := by
  intro y hy
  rw [stripWs_eq, rstrip, List.getLast?_reverse] at hy
  exact head_dropWhile isSpaceCh (l.dropWhile isSpaceCh).reverse y hy

/-- `strip` fixes any list with non-whitespace edges. -/
lemma stripWs_of_edges (l : List Char)
    (hh : ∀ y ∈ l.head?, isSpaceCh y = false)
    (hl : ∀ y ∈ l.getLast?, isSpaceCh y = false) : stripWs l = l := by
  rw [stripWs_eq, dropWhile_of_head _ _ hh, rstrip]
  rw [dropWhile_of_head _ _ (by rw [List.head?_reverse]; exact hl)]
  exact List.reverse_reverse l

lemma stripWs_idem (l : List Char) : stripWs (stripWs l) = stripWs l :=
  stripWs_of_edges _ (stripWs_head l) (stripWs_getLast l)

/-- Characters of the URL-removal output all come from the input. -/
lemma mem_urlStripAux (l : List Char) (b : Bool) (c : Char)
    (h : c ∈ urlStripAux b l) : c ∈ l := by
  induction l generalizing b with
  | nil => cases b <;> simp [urlStripAux] at h
  | cons x xs ih =>
    cases b with
    | true =>
      rw [urlStripAux] at h
      by_cases hx : isSpaceCh x
      · rw [if_pos hx] at h
        rcases List.mem_cons.mp h with h1 | h2
        · exact h1 ▸ List.mem_cons_self x xs
        · exact List.mem_cons_of_mem x (ih false h2)
      · rw [if_neg hx] at h
        exact List.mem_cons_of_mem x (ih true h)
    | false =>
      rw [urlStripAux] at h
      by_cases hm : urlMatchAt (x :: xs)
      · rw [if_pos hm] at h
        exact List.mem_cons_of_mem x (ih true h)
      · rw [if_neg hm] at h
        rcases List.mem_cons.mp h with h1 | h2
        · exact h1 ▸ List.mem_cons_self x xs
        · exact List.mem_cons_of_mem x (ih false h2)

/-- Characters of the whitespace-collapse output come from the input or
are the replacement space. -/
lemma mem_wsCollapseAux (l : List Char) (b : Bool) (c : Char)
    (h : c ∈ wsCollapseAux b l) : c = ' ' ∨ c ∈ l := by
  induction l generalizing b with
  | nil => cases b <;> simp [wsCollapseAux] at h
  | cons x xs ih =>
    cases b with
    | true =>
      rw [wsCollapseAux] at h
      by_cases hx : isSpaceCh x
      · rw [if_pos hx] at h
        rcases ih true h with h1 | h2
        · exact Or.inl h1
        · exact Or.inr (List.mem_cons_of_mem x h2)
      · rw [if_neg hx] at h
        rcases List.mem_cons.mp h with h1 | h2
        · exact Or.inr (h1 ▸ List.mem_cons_self x xs)
        · rcases ih false h2 with h3 | h4
          · exact Or.inl h3
          · exact Or.inr (List.mem_cons_of_mem x h4)
    | false =>
      rw [wsCollapseAux] at h
      by_cases hx : isSpaceCh x
      · rw [if_pos hx] at h
        rcases List.mem_cons.mp h with h1 | h2
        · exact Or.inl h1
        · rcases ih true h2 with h3 | h4
          · exact Or.inl h3
          · exact Or.inr (List.mem_cons_of_mem x h4)
      · rw [if_neg hx] at h
        rcases List.mem_cons.mp h with h1 | h2
        · exact Or.inr (h1 ▸ List.mem_cons_self x xs)
        · rcases ih false h2 with h3 | h4
          · exact Or.inl h3
          · exact Or.inr (List.mem_cons_of_mem x h4)

/-- The tag-removal pass fixes every list without `<`. -/
lemma tagStrip_of_no_lt (l : List Char) (h : '<' ∉ l) : tagStrip l = l := by
  rw [tagStrip]
  induction l with
  | nil => rfl
  | cons c cs ih =>
    have hc : c ≠ '<' := fun he => h (he ▸ List.mem_cons_self c cs)
    rw [tagStripAux, if_neg hc, ih (fun hm => h (List.mem_cons_of_mem c hm))]

lemma tagFreeB_of_no_lt (l : List Char) (h : '<' ∉ l) : tagFreeB l = true := by
  induction l with
  | nil => rfl
  | cons c cs ih =>
    have hc : c ≠ '<' := fun he => h (he ▸ List.mem_cons_self c cs)
    rw [tagFreeB, if_neg hc, ih (fun hm => h (List.mem_cons_of_mem c hm))]
    rfl

/-- No `<` in the input means no `<` anywhere in the cleaned output. -/
lemma no_lt_clean (l : List Char) (h : '<' ∉ l) : '<' ∉ clean l := by
  intro hm
  have h1 : '<' ∉ urlStrip l := fun hx => h (mem_urlStripAux l false '<' hx)
  rw [clean, tagStrip_of_no_lt _ h1] at hm
  have h2 := (stripWs_within (wsCollapse (urlStrip l))).subset hm
  rcases mem_wsCollapseAux _ false '<' h2 with h3 | h4
  · exact absurd h3 (by decide)
  · exact h1 h4

/-- Cleaned text is in whitespace normal form, whatever the input. -/
lemma collapsed_clean (l : List Char) : collapsed (clean l) := by
  rw [clean]
  exact collapsed_within _ _ (stripWs_within _)
    (collapsed_wsCollapse (tagStrip (urlStrip l)))

/-- On `<`-free inputs, cleaned text contains no URL-regex match. -/
lemma urlFreeB_clean (l : List Char) (h : '<' ∉ l) :
    urlFreeB (clean l) = true := by
  have h1 : '<' ∉ urlStrip l := fun hx => h (mem_urlStripAux l false '<' hx)
  rw [clean, tagStrip_of_no_lt _ h1]
  have u1 : urlFreeB (urlStrip l) = true := urlFreeB_urlStrip l
  have u2 : urlFreeB (wsCollapse (urlStrip l)) = true :=
    urlFreeB_of_scanLike wsCollapse scanLike_wsCollapse rfl _ _ (Nat.le_refl _) u1
  rw [stripWs_eq]
  have u3 : urlFreeB ((wsCollapse (urlStrip l)).dropWhile isSpaceCh) = true :=
    urlFreeB_suffix _ _ (List.dropWhile_suffix isSpaceCh) u2
  exact urlFreeB_of_scanLike rstrip scanLike_rstrip rfl _ _ (Nat.le_refl _) u3

/-- The normalizer fixes its own output on `<`-free inputs. -/
lemma clean_fix (l : List Char) (h : '<' ∉ l) : clean (clean l) = clean l := by
  have hurl : urlStrip (clean l) = clean l :=
    urlStrip_of_urlFree _ (urlFreeB_clean l h)
  have htag : tagStrip (clean l) = clean l :=
    tagStrip_of_no_lt _ (no_lt_clean l h)
  have hws : wsCollapse (clean l) = clean l :=
    wsCollapse_of_collapsed _ (collapsed_clean l)
  calc clean (clean l)
      = stripWs (wsCollapse (tagStrip (urlStrip (clean l)))) := rfl
    _ = stripWs (clean l) := by rw [hurl, htag, hws]
    _ = clean l := by rw [clean, stripWs_idem]

lemma lastBoundaryAux_bound (w : List Char) :
    ∀ i acc j, (∀ j', acc = some j' → 1 ≤ j' ∧ j' ≤ i) →
      lastBoundaryAux w i acc = some j → 1 ≤ j ∧ j ≤ i + w.length := by
  induction w with
  | nil =>
    intro i acc j hacc h
    have := hacc j h
    simpa using this
  | cons c rest ih =>
    intro i acc j hacc h
    rw [lastBoundaryAux] at h
    have hstep : ∀ j', (if isSpaceCh c then some (i + 1) else acc) = some j' →
        1 ≤ j' ∧ j' ≤ i + 1 := by
      intro j' hj'
      by_cases hc : isSpaceCh c
      · rw [if_pos hc] at hj'
        injection hj' with hj'
        omega
      · rw [if_neg hc] at hj'
        have := hacc j' hj'
        omega
    have := ih (i + 1) _ j hstep h
    simp only [List.length_cons]
    omega

lemma lastBoundary_bound (w : List Char) (j : Nat)
    (h : lastBoundary w = some j) : 1 ≤ j ∧ j ≤ w.length := by
  have := lastBoundaryAux_bound w 0 none j (by intro j' hj'; exact absurd hj' (by simp)) h
  simpa using this

lemma chunkCut_le (t : List Char) (cs co s : Nat) :
    chunkCut t cs co s ≤ s + cs := by
  rw [chunkCut]
  split
  · rename_i j hb
    split
    · rename_i hcj
      have hj := (lastBoundary_bound _ j hb).2
      rw [List.length_take] at hj
      have : j ≤ cs := le_trans hj (Nat.min_le_left _ _)
      omega
    · omega
  · omega

lemma chunkCut_gt (t : List Char) (cs co s : Nat) (hco : co < cs) :
    s + co < chunkCut t cs co s := by
  rw [chunkCut]
  split
  · rename_i j hb
    split
    · rename_i hcj
      omega
    · omega
  · omega

/-- Every emitted chunk fits in the window. -/
lemma splitFromFuel_len (fuel : Nat) :
    ∀ t cs co s, ∀ ch ∈ splitFromFuel fuel t cs co s, ch.text.length ≤ cs := by
  induction fuel with
  | zero =>
    intro t cs co s ch hch
    simp [splitFromFuel] at hch
  | succ f ih =>
    intro t cs co s ch hch
    rw [splitFromFuel] at hch
    by_cases hend : t.length ≤ s + cs
    · rw [if_pos hend] at hch
      simp only [List.mem_singleton] at hch
      rw [hch]
      simp only [List.length_drop]
      omega
    · rw [if_neg hend] at hch
      rcases List.mem_cons.mp hch with h1 | h2
      · rw [h1]
        have h3 := chunkCut_le t cs co s
        simp only [List.length_take, List.length_drop]
        omega
      · exact ih t cs co _ ch h2

/-- Every emitted chunk is the substring of the source text found at its
recorded `start_index`. -/
lemma splitFromFuel_substr (fuel : Nat) :
    ∀ t cs co s, ∀ ch ∈ splitFromFuel fuel t cs co s,
      ch.text = (t.drop ch.startIndex).take ch.text.length := by
  induction fuel with
  | zero =>
    intro t cs co s ch hch
    simp [splitFromFuel] at hch
  | succ f ih =>
    intro t cs co s ch hch
    rw [splitFromFuel] at hch
    by_cases hend : t.length ≤ s + cs
    · rw [if_pos hend] at hch
      simp only [List.mem_singleton] at hch
      rw [hch]
      exact (List.take_length _).symm
    · rw [if_neg hend] at hch
      rcases List.mem_cons.mp hch with h1 | h2
      · rw [h1]
        dsimp only
        rw [List.take_eq_take]
        simp only [List.length_take, List.length_drop]
        omega
      · exact ih t cs co _ ch h2

/-- The first chunk emitted from position `s'` starts at `s'`, is at
least `co` long, and its first `co` characters are the text's characters
at `s'`. -/
lemma splitFromFuel_head_spec (f : Nat) (t : List Char) (cs co s' : Nat)
    (hco : co < cs) (hlen : s' + co < t.length) :
    ∀ b ∈ (splitFromFuel f t cs co s').head?,
      b.startIndex = s' ∧ co ≤ b.text.length ∧
        b.text.take co = (t.drop s').take co := by
  intro b hb
  cases f with
  | zero => simp [splitFromFuel] at hb
  | succ g =>
    rw [splitFromFuel] at hb
    by_cases hend : t.length ≤ s' + cs
    · rw [if_pos hend] at hb
      simp only [List.head?_cons, Option.mem_some_iff] at hb
      rw [← hb]
      refine ⟨rfl, ?_, rfl⟩
      simp only [List.length_drop]
      omega
    · rw [if_neg hend] at hb
      simp only [List.head?_cons, Option.mem_some_iff] at hb
      rw [← hb]
      have hgt := chunkCut_gt t cs co s' hco
      have hle := chunkCut_le t cs co s'
      refine ⟨rfl, ?_, ?_⟩
      · simp only [List.length_take, List.length_drop]
        omega
      · rw [List.take_take]
        congr 1
        omega

/-- Consecutive chunks overlap by exactly `co` characters. -/
lemma splitFromFuel_chain (fuel : Nat) :
    ∀ t cs co s, co < cs →
      List.Chain' (overlapR co) (splitFromFuel fuel t cs co s) := by
  induction fuel with
  | zero =>
    intro t cs co s _
    rw [splitFromFuel]
    exact List.chain'_nil
  | succ f ih =>
    intro t cs co s hco
    rw [splitFromFuel]
    by_cases hend : t.length ≤ s + cs
    · rw [if_pos hend]
      exact List.chain'_singleton _
    · rw [if_neg hend]
      rw [List.chain'_cons']
      refine ⟨?_, ih t cs co _ hco⟩
      intro b hb
      have hgt := chunkCut_gt t cs co s hco
      have hle := chunkCut_le t cs co s
      have hlen' : (chunkCut t cs co s - co) + co < t.length := by omega
      obtain ⟨hbs, hbl, hbt⟩ := splitFromFuel_head_spec f t cs co _ hco hlen' b hb
      have hal : ((t.drop s).take (chunkCut t cs co s - s)).length
          = chunkCut t cs co s - s := by
        simp only [List.length_take, List.length_drop]
        omega
      refine ⟨?_, ?_, hbl, ?_⟩
      · show s + ((t.drop s).take (chunkCut t cs co s - s)).length = b.startIndex + co
        rw [hal, hbs]
        omega
      · show co ≤ ((t.drop s).take (chunkCut t cs co s - s)).length
        rw [hal]
        omega
      · show ((t.drop s).take (chunkCut t cs co s - s)).drop
            (((t.drop s).take (chunkCut t cs co s - s)).length - co) = b.text.take co
        rw [hbt, hal, List.drop_take, List.drop_drop]
        congr 1
        · omega
        · congr 1
          omega

lemma splitText_len (t : List Char) (cs co : Nat) :
    ∀ ch ∈ splitText t cs co, ch.text.length ≤ cs := by
  intro ch hch
  rw [splitText] at hch
  by_cases he : t.isEmpty
  · rw [if_pos he] at hch
    simp at hch
  · rw [if_neg he] at hch
    exact splitFromFuel_len _ t cs co 0 ch hch

lemma splitText_chain (t : List Char) (cs co : Nat) (hco : co < cs) :
    List.Chain' (overlapR co) (splitText t cs co) := by
  rw [splitText]
  by_cases he : t.isEmpty
  · rw [if_pos he]
    exact List.chain'_nil
  · rw [if_neg he]
    exact splitFromFuel_chain _ t cs co 0 hco

/-! ## Loader lemmas -/

lemma readWithFallback_decodable (f : SrcFile) (h : f.utf8Decodable = true) :
    readWithFallback f = Except.ok (f.rows.filter (·.wellFormed)) := by
  simp [readWithFallback, readCsv, h]

lemma readWithFallback_fallback (f : SrcFile) (h : f.utf8Decodable = false) :
    readWithFallback f =
      (if f.rows.all (·.wellFormed) then Except.ok f.rows
       else Except.error ReadError.parserError) := by
  simp [readWithFallback, readCsv, h]

lemma encodingsAttempted_decodable (f : SrcFile) (h : f.utf8Decodable = true) :
    encodingsAttempted f = [Encoding.utf8] := by
  simp [encodingsAttempted, readCsv, h]

lemma encodingsAttempted_fallback (f : SrcFile) (h : f.utf8Decodable = false) :
    encodingsAttempted f = [Encoding.utf8, Encoding.latin1] := by
  simp [encodingsAttempted, readCsv, h]

/-- The loaded frames depend only on the directory entries for the file
names actually requested. -/
lemma loadFiles_congr (dir dir' : List Char → Option SrcFile) :
    ∀ names, (∀ n ∈ names, dir n = dir' n) →
      loadFiles dir names = loadFiles dir' names := by
  intro names
  induction names with
  | nil => intro _; rfl
  | cons name rest ih =>
    intro h
    have hn : dir name = dir' name := h name (List.mem_cons_self name rest)
    have hr : loadFiles dir rest = loadFiles dir' rest :=
      ih fun n hn' => h n (List.mem_cons_of_mem name hn')
    rw [loadFiles, loadFiles, hn, hr]

/-- Every produced frame is tagged with one of the requested file names
and holds a nonempty table. -/
lemma loadFiles_frames (dir : List Char → Option SrcFile) :
    ∀ names frames, loadFiles dir names = Except.ok frames →
      ∀ fr ∈ frames, fr.source_filename ∈ names ∧ fr.rows ≠ [] := by
  intro names
  induction names with
  | nil =>
    intro frames h fr hfr
    rw [loadFiles] at h
    injection h with h
    rw [← h] at hfr
    simp at hfr
  | cons name rest ih =>
    intro frames h fr hfr
    rw [loadFiles] at h
    split at h
    · have := ih frames h fr hfr
      exact ⟨List.mem_cons_of_mem name this.1, this.2⟩
    · split at h
      · split at h
        · exact absurd h (by simp)
        · split at h
          · exact absurd h (by simp)
          · rename_i rowsv hread lfscrut frames' hrest
            split at h
            · injection h with h
              rw [← h] at hfr
              have := ih frames' hrest fr hfr
              exact ⟨List.mem_cons_of_mem name this.1, this.2⟩
            · rename_i hemp
              injection h with h
              rw [← h] at hfr
              rcases List.mem_cons.mp hfr with h1 | h2
              · rw [h1]
                refine ⟨List.mem_cons_self name rest, ?_⟩
                intro hnil
                exact hemp (by rw [show rowsv = [] from hnil]; rfl)
              · have := ih frames' hrest fr h2
                exact ⟨List.mem_cons_of_mem name this.1, this.2⟩
      · have := ih frames h fr hfr
        exact ⟨List.mem_cons_of_mem name this.1, this.2⟩

/-- Enumerate-then-map rendered as a positionally indexed list. -/
lemma enum_map_ofFn {α β : Type} (l : List α) (g : Nat × α → β) :
    l.enum.map g = List.ofFn (fun i : Fin l.length => g (i.1, l.get i)) := by
  apply List.ext_getElem
  · simp
  · intro i h1 h2
    simp [List.getElem_map, List.getElem_enum, List.getElem_ofFn]

/-! ## Claim theorems -/

/-- C1, counterexample: `_clean_tweet_content` is not idempotent — on
`"ht<a>tpz"` tag removal glues `ht` and `tpz` into the URL token `httpz`
(the URL pass having already run), and a second application removes it
entirely. -/
theorem claim_C1_counterexample :
    clean (clean "ht<a>tpz".toList) ≠ clean "ht<a>tpz".toList := by decide

/-- C1, amended: `_clean_tweet_content` is idempotent on every input
containing no `<` character (tag removal is the only pass able to create
new URL tokens, and it needs a `<` to act). -/
theorem claim_C1 (l : List Char) (h : '<' ∉ l) :
    clean (clean l) = clean l :=
  clean_fix l h

/-- Witness for C1 at a concrete `<`-free input. -/
theorem claim_C1_witness :
    clean (clean "a  b http://x".toList) = clean "a  b http://x".toList :=
  claim_C1 "a  b http://x".toList (by decide)

/-- C2, counterexample: on `"ht<a>tpz"` the normalizer's output is
`httpz`, which still matches the URL regex, so the output is not free of
`http` tokens. -/
theorem claim_C2_counterexample :
    clean "ht<a>tpz".toList = "httpz".toList ∧
      urlFreeB (clean "ht<a>tpz".toList) = false := by
  constructor <;> decide

/-- C2, amended: for every input the output of `_clean_tweet_content`
has no two consecutive whitespace characters and no leading or trailing
whitespace; for every input containing no `<` character the output
additionally contains no `http`/`www` token and no `<...>` tag
pattern. -/
theorem claim_C2 (l : List Char) :
    ((clean l).Chain' (fun a b => isSpaceCh a = false ∨ isSpaceCh b = false) ∧
      (∀ y ∈ (clean l).head?, isSpaceCh y = false) ∧
      (∀ y ∈ (clean l).getLast?, isSpaceCh y = false)) ∧
    ('<' ∉ l → urlFreeB (clean l) = true ∧ tagFreeB (clean l) = true) := by
  refine ⟨⟨(collapsed_clean l).2, stripWs_head _, stripWs_getLast _⟩, fun h => ?_⟩
  exact ⟨urlFreeB_clean l h, tagFreeB_of_no_lt _ (no_lt_clean l h)⟩

/-- Witness for C2 at a concrete `<`-free input. -/
theorem claim_C2_witness :
    (((clean "a \t b www.x.y ".toList).Chain'
        (fun a b => isSpaceCh a = false ∨ isSpaceCh b = false) ∧
      (∀ y ∈ (clean "a \t b www.x.y ".toList).head?, isSpaceCh y = false) ∧
      (∀ y ∈ (clean "a \t b www.x.y ".toList).getLast?, isSpaceCh y = false)) ∧
    (urlFreeB (clean "a \t b www.x.y ".toList) = true ∧
      tagFreeB (clean "a \t b www.x.y ".toList) = true)) :=
  ⟨(claim_C2 "a \t b www.x.y ".toList).1,
    (claim_C2 "a \t b www.x.y ".toList).2 (by decide)⟩

/-- C3, counterexample: a `k = 0` request is not rejected as an invalid
argument — `search` forwards it to the index as an MMR call with
`k = 0`. -/
theorem claim_C3_counterexample :
    search "q".toList 0 true =
      Except.ok (IndexCall.mmr "q".toList 0 20 (1 / 2 : Rat)) := rfl

/-- C3, amended: `search` performs no validation of `k`: every request,
in particular one with `k ≤ 0`, is forwarded to the index with `k`
unchanged, and no invalid-argument error is ever surfaced. -/
theorem claim_C3 (query : List Char) (k : Int) (useMmr : Bool) (_h : k ≤ 0) :
    ∃ call, search query k useMmr = Except.ok call ∧ kOf call = k := by
  cases useMmr with
  | false => exact ⟨IndexCall.similarity query k, rfl, rfl⟩
  | true => exact ⟨IndexCall.mmr query k 20 (1 / 2 : Rat), rfl, rfl⟩

/-- Witness for C3 at `k = -1`. -/
theorem claim_C3_witness :
    ∃ call, search "q".toList (-1) true = Except.ok call ∧ kOf call = -1 :=
  claim_C3 "q".toList (-1) true (by decide)

/-- C4, counterexample: at `k = 25` the MMR call still goes out with
`fetch_k = 20 < k`; `fetch_k` is not clamped up to `k`. -/
theorem claim_C4_counterexample :
    search "q".toList 25 true =
      Except.ok (IndexCall.mmr "q".toList 25 20 (1 / 2 : Rat)) ∧ (20 : Int) < 25 :=
  ⟨rfl, by decide⟩

/-- C4, amended: in diversity mode the candidate-pool size `fetch_k` is
the constant 20 whatever `k` is; a request with `k > 20` is forwarded
with `fetch_k = 20 < k` rather than clamped, and the call itself does not
fail. -/
theorem claim_C4 (query : List Char) (k : Int) :
    ∃ call, search query k true = Except.ok call ∧ fetchKOf call = some 20 :=
  ⟨IndexCall.mmr query k 20 (1 / 2 : Rat), rfl, rfl⟩

/-- C5: with `chunk_size = 512` and `chunk_overlap = 50`, every emitted
chunk is at most 512 characters long, and any two consecutive chunks of
the same record overlap by exactly 50 characters — the indices agree and
the shared 50 characters coincide — while the final chunk may be
shorter. -/
theorem claim_C5 (t : List Char) :
    (∀ ch ∈ splitText t 512 50, ch.text.length ≤ 512) ∧
      List.Chain' (overlapR 50) (splitText t 512 50) :=
  ⟨splitText_len t 512 50, splitText_chain t 512 50 (by decide)⟩

set_option maxRecDepth 40000 in
/-- Witness for C5: the first chunk of a 600-character text is a member
of the split and respects the length bound. -/
theorem claim_C5_witness :
    (⟨List.replicate 512 'a', 0⟩ : Chunk).text.length ≤ 512 :=
  (claim_C5 (List.replicate 600 'a')).1 ⟨List.replicate 512 'a', 0⟩ (by decide)

/-- C6, counterexample: a file whose bytes are not UTF-8 and whose only
row is malformed aborts its load with a parser error — the latin-1
fallback read passes no `on_bad_lines="warn"` — instead of skipping the
row. -/
theorem claim_C6_counterexample :
    readWithFallback ⟨[⟨false, 0⟩], false⟩ =
      Except.error ReadError.parserError := rfl

/-- C6, amended: on the primary UTF-8 read malformed rows are skipped
(`on_bad_lines="warn"`) and do not abort the file's load; on the latin-1
fallback read any malformed row raises the default pandas parser error
and aborts the load. -/
theorem claim_C6 (f : SrcFile) :
    (f.utf8Decodable = true →
      readWithFallback f = Except.ok (f.rows.filter (·.wellFormed))) ∧
    (f.utf8Decodable = false →
      readWithFallback f =
        (if f.rows.all (·.wellFormed) then Except.ok f.rows
         else Except.error ReadError.parserError)) :=
  ⟨readWithFallback_decodable f, readWithFallback_fallback f⟩

/-- Witness for C6: a decodable file with one malformed and one good row
loads to the good row only. -/
theorem claim_C6_witness :
    readWithFallback ⟨[⟨false, 0⟩, ⟨true, 1⟩], true⟩ =
      Except.ok ([⟨false, 0⟩, ⟨true, 1⟩].filter (·.wellFormed)) :=
  (claim_C6 ⟨[⟨false, 0⟩, ⟨true, 1⟩], true⟩).1 rfl

/-- C7: when the UTF-8 read fails to decode, the loader retries with
latin-1, the encodings being attempted in that fixed order, and the
file's outcome is that of the latin-1 read; a decodable file never
reaches the fallback. -/
theorem claim_C7 (f : SrcFile) :
    (f.utf8Decodable = false →
      encodingsAttempted f = [Encoding.utf8, Encoding.latin1] ∧
        readWithFallback f =
          readCsv f Encoding.latin1 BadLinesPolicy.raiseError) ∧
    (f.utf8Decodable = true → encodingsAttempted f = [Encoding.utf8]) := by
  constructor
  · intro h
    refine ⟨encodingsAttempted_fallback f h, ?_⟩
    simp [readWithFallback, readCsv, h]
  · exact encodingsAttempted_decodable f

/-- Witness for C7 at a concrete undecodable file. -/
theorem claim_C7_witness :
    encodingsAttempted ⟨[⟨true, 3⟩], false⟩ = [Encoding.utf8, Encoding.latin1] ∧
      readWithFallback ⟨[⟨true, 3⟩], false⟩ =
        readCsv ⟨[⟨true, 3⟩], false⟩ Encoding.latin1 BadLinesPolicy.raiseError :=
  (claim_C7 ⟨[⟨true, 3⟩], false⟩).1 rfl

/-- C8: `_clean_tweet_content` returns the empty string on every
non-string cell without failing, and after `process_and_unify` the
`tweet_text` cell of every record is a string. -/
theorem claim_C8 :
    (∀ v : CellValue, (∀ s, v ≠ CellValue.str s) → cleanTweetContent v = []) ∧
    (∀ (dfs : List (List SrcRecord)) (r : SrcRecord), r ∈ processAndUnify dfs →
      ∃ s, r.tweet_text = CellValue.str s) := by
  constructor
  · intro v hv
    cases v with
    | str s => exact absurd rfl (hv s)
    | nan => rfl
    | num n => rfl
  · intro dfs r hr
    rw [processAndUnify] at hr
    obtain ⟨r₀, _, rfl⟩ := List.mem_map.mp hr
    exact ⟨cleanTweetContent r₀.tweet_text, rfl⟩

/-- Witness for C8: NaN cells clean to the empty string, and a processed
record holds a string cell. -/
theorem claim_C8_witness :
    cleanTweetContent CellValue.nan = [] ∧
      ∃ s, (⟨CellValue.str []⟩ : SrcRecord).tweet_text = CellValue.str s :=
  ⟨claim_C8.1 CellValue.nan (fun s h => CellValue.noConfusion h),
    claim_C8.2 [[⟨CellValue.nan⟩]] ⟨CellValue.str []⟩ (by decide)⟩

/-- C9: the context string handed to the language model is the
double-newline join of one line per retrieved document, in list order,
the line at 0-based position `i` being numbered `Source [i+1]` and
carrying that document's classification label. -/
theorem claim_C9 (docs : List SourceDoc) :
    contextText docs = List.intercalate "\n\n".toList
      (List.ofFn fun i : Fin docs.length =>
        "Source [".toList ++ (Nat.repr (i.1 + 1)).toList ++ "]: ".toList ++
          (docs.get i).page_content ++ " (Label: ".toList ++
          renderLabel (docs.get i).class_label ++ ")".toList) := by
  rw [contextText]
  congr 1
  exact enum_map_ofFn docs _

/-- C10: the loader's result depends only on the directory entries at the
two hardcoded target names, every produced frame carries one of those
names as provenance, and a file loading to an empty table contributes
nothing. -/
theorem claim_C10 (dir dir' : List Char → Option SrcFile) :
    ((∀ n ∈ targetFiles, dir n = dir' n) →
      loadSourceData dir = loadSourceData dir') ∧
    (∀ frames, loadSourceData dir = Except.ok frames →
      ∀ fr ∈ frames, fr.source_filename ∈ targetFiles ∧ fr.rows ≠ []) := by
  constructor
  · intro h
    exact loadFiles_congr dir dir' targetFiles h
  · intro frames h fr hfr
    exact loadFiles_frames dir targetFiles frames h fr hfr

/-- Witness for C10: two directories agreeing on the two target names
(but not elsewhere) load identically, and the loaded frame of a concrete
directory is tagged and nonempty. -/
theorem claim_C10_witness :
    (loadSourceData
        (fun n => if n = "claim_dataset.tsv".toList
          then some ⟨[⟨true, 7⟩], true⟩ else none) =
      loadSourceData
        (fun n => if n = "claim_dataset.tsv".toList
          then some ⟨[⟨true, 7⟩], true⟩
          else if n = "checkworthiness_dataset.tsv".toList then none
          else some ⟨[⟨true, 9⟩], true⟩)) ∧
    ((⟨[⟨true, 7⟩], "claim_dataset.tsv".toList⟩ : Frame).source_filename
        ∈ targetFiles ∧
      (⟨[⟨true, 7⟩], "claim_dataset.tsv".toList⟩ : Frame).rows ≠ []) :=
  ⟨(claim_C10 _ _).1 (by decide),
    (claim_C10
        (fun n => if n = "claim_dataset.tsv".toList
          then some ⟨[⟨true, 7⟩], true⟩ else none)
        (fun n => if n = "claim_dataset.tsv".toList
          then some ⟨[⟨true, 7⟩], true⟩ else none)).2
      [⟨[⟨true, 7⟩], "claim_dataset.tsv".toList⟩] rfl
      ⟨[⟨true, 7⟩], "claim_dataset.tsv".toList⟩ (by decide)⟩

end ClaimRag
